import Mathlib

/-!
Shallow embedding of `kp_accessor` (src/kp_accessor/kp_accessor.py and
src/kp_accessor/data_retrieval.py).

Time is modelled in minutes. A Python `datetime` is a wall-clock minute count
together with an optional UTC offset (`none` = naive); comparisons between
aware datetimes in Python go through the absolute UTC value, which `utc` below
computes. The 3-hour grid step is 180 minutes.

The `SortedDict` cache is modelled as a list of (key, value) pairs sorted
strictly by key; keys stored by `_update_sorted_dict_from_kp_table` always
carry `tzinfo=timezone.utc`, so a stored key is represented by its absolute
UTC minute count alone.  The download/parse pipeline behind `_update_cache`
is abstracted as a `Source`: either a failure (`RuntimeError` from
`_download_kp_values_textfile`) or the list of samples the table yields.
-/

namespace KpModel

/-- Kp values (Python floats; the accessor only stores and returns them). -/
abbrev Kp := Rat

/-- Model of a Python `datetime`: wall-clock minutes and an optional UTC
offset in minutes (`none` models a naive datetime). -/
structure PyDatetime where
  wall : Int
  tz : Option Int
deriving DecidableEq, Repr

/-- Absolute time in UTC minutes of an aware datetime. Python compares aware
datetimes by this value; within the accessor every compared datetime is aware. -/
def PyDatetime.utc (d : PyDatetime) : Int := d.wall - d.tz.getD 0

/-- Lines 60-61: `if dt.tzinfo is None: dt = dt.replace(tzinfo=timezone.utc)`.
A naive datetime is labelled UTC keeping its wall value; an aware one is left
untouched. -/
def normalizeNaive (d : PyDatetime) : PyDatetime :=
  if d.tz = none then ⟨d.wall, some 0⟩ else d

/-- Lines 89-91 applied to the absolute UTC minute count: zero out
minute/second/microsecond (`w - w % 60`), then subtract `hour % 3` hours,
where the hour of day of a UTC minute count `w1` is `w1 / 60 % 24`. -/
def floor3h (w : Int) : Int :=
  let w1 := w - w % 60
  w1 - 60 * (w1 / 60 % 24 % 3)

/-- A sample: a stored key (absolute UTC minutes) and its Kp value. -/
abbrev Sample := Int × Kp

/-- The `SortedDict` cache: entries sorted strictly by key. -/
abbrev KpIndex := List Sample

/-- `dt in self._sd`. -/
def hasKey (sd : KpIndex) (k : Int) : Bool := sd.any fun p => p.1 = k

/-- `self._sd[dt]` (meaningful when `hasKey sd k`). -/
def valAt (sd : KpIndex) (k : Int) : Kp :=
  ((sd.find? fun p => p.1 = k).map Prod.snd).getD 0

/-- `self._sd.keys()[0]` (meaningful when the dict is non-empty). -/
def firstKeyD (sd : KpIndex) : Int := (sd.head?.map Prod.fst).getD 0

/-- `self._sd.keys()[-1]` (meaningful when the dict is non-empty). -/
def lastKeyD (sd : KpIndex) : Int := (sd.getLast?.map Prod.fst).getD 0

/-- `SortedDict.__setitem__`: insert keeping keys sorted, overwriting the
value when the key is already present. -/
def sdInsert : KpIndex → Int → Kp → KpIndex
  | [], k, v => [(k, v)]
  | p :: rest, k, v =>
    if k < p.1 then (k, v) :: p :: rest
    else if k = p.1 then (k, v) :: rest
    else p :: sdInsert rest k v

/-- `self._sd.bisect_left(dt)` on the sorted key sequence: the number of
leading keys strictly below `x`. -/
def bisect_left : KpIndex → Int → Nat
  | [], _ => 0
  | p :: rest, x => if p.1 < x then bisect_left rest x + 1 else 0

/-- Python sequence indexing `l[i]`, with negative indices counting from the
end and `none` for an `IndexError`. -/
def pyIndex (l : KpIndex) (i : Int) : Option Sample :=
  let j := if i < 0 then i + l.length else i
  if 0 ≤ j then l[j.toNat]? else none

/-- The `SortedDict` invariant: keys strictly increasing. -/
def SortedKeys (sd : KpIndex) : Prop := sd.Pairwise fun a b => a.1 < b.1

/-- The stored-key invariant from the data model: every key sits on the
3-hour grid (a multiple of 180 minutes). -/
def AlignedKeys (sd : KpIndex) : Prop := ∀ p ∈ sd, p.1 % 180 = 0

instance (sd : KpIndex) : Decidable (SortedKeys sd) :=
  List.instDecidablePairwise sd

instance (sd : KpIndex) : Decidable (AlignedKeys sd) :=
  List.decidableBAll _ sd

/-- The error taxonomy. `beforeEarliest`, `futureTimestamp` and
`laterThanLatest` are the `ValueError`s of lines 75, 78 and 81;
`cacheEmpty` is the `RuntimeError` of line 71; `sourceUnavailable` the
`RuntimeError` raised inside `_download_kp_values_textfile`; `indexError`
a Python `IndexError` from sequence indexing. -/
inductive KpError where
  | beforeEarliest
  | futureTimestamp
  | laterThanLatest
  | cacheEmpty
  | sourceUnavailable
  | indexError
deriving DecidableEq, Repr

/-- Which errors are Python `ValueError`s (caught by `get_key_covering_date`). -/
def isValueError : KpError → Bool
  | .beforeEarliest => true
  | .futureTimestamp => true
  | .laterThanLatest => true
  | _ => false

/-- The download/parse pipeline: a failure, or the samples the table yields. -/
abbrev Source := Except Unit (List Sample)

/-- `_update_sorted_dict_from_kp_table`: insert every sample from the table
into the existing mapping, in table order, without clearing it first. -/
def updateFromSamples (samples : List Sample) (sd : KpIndex) : KpIndex :=
  samples.foldl (fun acc s => sdInsert acc s.1 s.2) sd

/-- `KpAccessor._update_cache`: download and parse (which may raise), then
update the existing `SortedDict` from the table. -/
def update_cache (src : Source) (sd : KpIndex) : Except KpError KpIndex :=
  match src with
  | .error _ => .error .sourceUnavailable
  | .ok samples => .ok (updateFromSamples samples sd)

/-- `KpAccessor.__init__`: start from an empty dict and run `_update_cache`. -/
def kpAccessorInit (src : Source) : Except KpError KpIndex :=
  update_cache src []

/-- State observed alongside a query's outcome: the cache after the call,
how many `_update_cache` calls the query made, and whether the
discretization-miss warning was emitted. -/
structure QState where
  sd : KpIndex
  refreshes : Nat
  warned : Bool
deriving DecidableEq, Repr

abbrev QueryResult := QState × Except KpError (PyDatetime × Kp)

/-- Lines 99-104: bisect to the insertion position of the search key, step
back one, and index the item sequence (Python negative indexing included). -/
def leftNearestStep (sd : KpIndex) (r : Nat) (warned : Bool) (searchKey : Int) :
    QueryResult :=
  match pyIndex sd ((bisect_left sd searchKey : Int) - 1) with
  | some p => (⟨sd, r, warned⟩, .ok (⟨p.1, some 0⟩, p.2))
  | none => (⟨sd, r, warned⟩, .error .indexError)

/-- Lines 83-104: secondary exact check, then the discretization branch
(grid-floor, exact check on it, warning and fallback on a miss), else the
fallback on the un-discretized datetime. -/
def exactThenDiscretize (sd : KpIndex) (r : Nat) (dt : PyDatetime)
    (disc : Bool) : QueryResult :=
  if hasKey sd dt.utc then (⟨sd, r, false⟩, .ok (dt, valAt sd dt.utc))
  else if disc then
    let dtF : PyDatetime := ⟨floor3h dt.utc, some 0⟩
    if hasKey sd dtF.utc then (⟨sd, r, false⟩, .ok (dtF, valAt sd dtF.utc))
    else leftNearestStep sd r true dtF.utc
  else leftNearestStep sd r false dt.utc

/-- Lines 73-104: range validation against the first and last keys (with the
future check and the single refresh of the beyond-range branch), then the
rest of the lookup. Reached with a non-empty cache. -/
def rangeAndLookup (src : Source) (now : Int) (sd : KpIndex) (r : Nat)
    (dt : PyDatetime) (disc : Bool) : QueryResult :=
  if dt.utc < firstKeyD sd then (⟨sd, r, false⟩, .error .beforeEarliest)
  else if lastKeyD sd + 180 < dt.utc then
    if now < dt.utc then (⟨sd, r, false⟩, .error .futureTimestamp)
    else
      match update_cache src sd with
      | .error e => (⟨sd, r + 1, false⟩, .error e)
      | .ok sd2 =>
        if lastKeyD sd2 + 180 < dt.utc then
          (⟨sd2, r + 1, false⟩, .error .laterThanLatest)
        else exactThenDiscretize sd2 (r + 1) dt disc
  else exactThenDiscretize sd r dt disc

/-- `KpAccessor.get_kv_covering_datetime`: normalize a naive input to UTC,
initial exact check, empty-cache refresh, then range validation and lookup. -/
def get_kv_covering_datetime (src : Source) (now : Int) (sd0 : KpIndex)
    (dt0 : PyDatetime) (disc : Bool) : QueryResult :=
  let dt := normalizeNaive dt0
  if hasKey sd0 dt.utc then (⟨sd0, 0, false⟩, .ok (dt, valAt sd0 dt.utc))
  else
    match sd0 with
    | [] =>
      match update_cache src [] with
      | .error e => (⟨[], 1, false⟩, .error e)
      | .ok sd1 =>
        match sd1 with
        | [] => (⟨[], 1, false⟩, .error .cacheEmpty)
        | q :: qs => rangeAndLookup src now (q :: qs) 1 dt disc
    | p :: ps => rangeAndLookup src now (p :: ps) 0 dt disc

/-- `KpAccessor.get_key_covering_date`: run the query with the default
`three_hour_discretization=True`, return only the key, and turn a
`ValueError` into `None`; other exceptions propagate. -/
def get_key_covering_date (src : Source) (now : Int) (sd0 : KpIndex)
    (dt0 : PyDatetime) : QState × Except KpError (Option PyDatetime) :=
  match get_kv_covering_datetime src now sd0 dt0 true with
  | (s, .ok kv) => (s, .ok (some kv.1))
  | (s, .error e) => if isValueError e then (s, .ok none) else (s, .error e)

/-- `KpAccessor.get_kp_from_datetime`: run the query with the default
`three_hour_discretization=True` and return only the value. -/
def get_kp_from_datetime (src : Source) (now : Int) (sd0 : KpIndex)
    (dt0 : PyDatetime) : QState × Except KpError Kp :=
  match get_kv_covering_datetime src now sd0 dt0 true with
  | (s, .ok kv) => (s, .ok kv.2)
  | (s, .error e) => (s, .error e)

/-! ### Arithmetic facts about the 3-hour grid floor -/

theorem floor3h_eq (w : Int) : floor3h w = w - w % 180 := by
  simp only [floor3h]; omega

theorem floor3h_le (w : Int) : floor3h w ≤ w := by
  rw [floor3h_eq]; omega

theorem lt_floor3h_add (w : Int) : w < floor3h w + 180 := by
  rw [floor3h_eq]; omega

theorem floor3h_of_aligned {w : Int} (h : w % 180 = 0) : floor3h w = w := by
  rw [floor3h_eq]; omega

theorem floor3h_mono {a b : Int} (h : a ≤ b) : floor3h a ≤ floor3h b := by
  rw [floor3h_eq, floor3h_eq]; omega

/-! ### Facts about the sorted cache -/

theorem hasKey_iff {sd : KpIndex} {k : Int} :
    hasKey sd k = true ↔ ∃ v, (k, v) ∈ sd := by
  unfold hasKey
  simp only [List.any_eq_true, decide_eq_true_eq]
  constructor
  · rintro ⟨⟨a, v⟩, hmem, h⟩
    have hak : a = k := h
    subst hak
    exact ⟨v, hmem⟩
  · rintro ⟨v, hmem⟩
    exact ⟨(k, v), hmem, rfl⟩

theorem hasKey_of_mem {sd : KpIndex} {p : Sample} (h : p ∈ sd) :
    hasKey sd p.1 = true :=
  hasKey_iff.2 ⟨p.2, h⟩

theorem hasKey_eq_false {sd : KpIndex} {k : Int}
    (h : ∀ p ∈ sd, p.1 ≠ k) : hasKey sd k = false := by
  rcases hh : hasKey sd k with _ | _
  · rfl
  · obtain ⟨v, hmem⟩ := hasKey_iff.1 hh
    exact absurd rfl (h (k, v) hmem)

theorem valAt_of_mem {sd : KpIndex} {k : Int} {v : Kp}
    (hs : SortedKeys sd) (h : (k, v) ∈ sd) : valAt sd k = v := by
  induction sd with
  | nil => cases h
  | cons p ps ih =>
    rcases List.pairwise_cons.1 hs with ⟨hp, hps⟩
    rcases List.mem_cons.1 h with h | h
    · cases h
      simp [valAt, List.find?_cons]
    · have hne : p.1 ≠ k := Int.ne_of_lt (hp _ h)
      have : valAt ps k = v := ih hps h
      simpa [valAt, List.find?_cons, hne] using this

theorem key_mono {sd : KpIndex} (hs : SortedKeys sd) {i j : Nat}
    (hij : i ≤ j) (hj : j < sd.length) :
    (sd.get ⟨i, lt_of_le_of_lt hij hj⟩).1 ≤ (sd.get ⟨j, hj⟩).1 := by
  rcases Nat.lt_or_ge i j with h | h
  · exact le_of_lt (List.pairwise_iff_get.1 hs ⟨i, lt_trans h hj⟩ ⟨j, hj⟩ h)
  · have : i = j := le_antisymm hij h
    subst this
    exact le_refl _

theorem firstKeyD_eq_get {sd : KpIndex} (h : sd ≠ []) :
    firstKeyD sd = (sd.get ⟨0, List.length_pos.2 h⟩).1 := by
  cases sd with
  | nil => exact absurd rfl h
  | cons p ps => rfl

theorem lastKeyD_eq_get {sd : KpIndex} (h : sd ≠ []) :
    lastKeyD sd =
      (sd.get ⟨sd.length - 1, by
        have := List.length_pos.2 h; omega⟩).1 := by
  unfold lastKeyD
  rw [List.getLast?_eq_getLast_of_ne_nil h, List.getLast_eq_getElem]
  simp [List.get_eq_getElem]

theorem firstKeyD_le_of_mem {sd : KpIndex} {p : Sample}
    (hs : SortedKeys sd) (h : p ∈ sd) : firstKeyD sd ≤ p.1 := by
  have hne : sd ≠ [] := List.ne_nil_of_mem h
  obtain ⟨i, hi⟩ := List.mem_iff_get.1 h
  rw [firstKeyD_eq_get hne, ← hi]
  exact key_mono hs (Nat.zero_le _) i.isLt

theorem mem_le_lastKeyD {sd : KpIndex} {p : Sample}
    (hs : SortedKeys sd) (h : p ∈ sd) : p.1 ≤ lastKeyD sd := by
  have hne : sd ≠ [] := List.ne_nil_of_mem h
  obtain ⟨i, hi⟩ := List.mem_iff_get.1 h
  rw [lastKeyD_eq_get hne, ← hi]
  have hlen := List.length_pos.2 hne
  exact key_mono hs (by omega) (by omega)

theorem hasKey_eq_false_of_between {sd : KpIndex} (hs : SortedKeys sd)
    {i : Nat} (hi : i + 1 < sd.length) {x : Int}
    (h1 : (sd.get ⟨i, by omega⟩).1 < x)
    (h2 : x < (sd.get ⟨i + 1, hi⟩).1) : hasKey sd x = false := by
  refine hasKey_eq_false fun p hmem hk => ?_
  obtain ⟨j, hj⟩ := List.mem_iff_get.1 hmem
  rcases Nat.lt_or_ge j.1 (i + 1) with hcase | hcase
  · have : (sd.get j).1 ≤ (sd.get ⟨i, by omega⟩).1 := by
      have := key_mono hs (i := j.1) (j := i) (by omega) (by omega)
      simpa using this
    rw [hj, hk] at this
    omega
  · have : (sd.get ⟨i + 1, hi⟩).1 ≤ (sd.get j).1 := by
      have := key_mono hs (i := i + 1) (j := j.1) hcase j.isLt
      simpa using this
    rw [hj, hk] at this
    omega

theorem hasKey_eq_false_of_gt_last {sd : KpIndex} (hs : SortedKeys sd)
    {x : Int} (h : lastKeyD sd < x) : hasKey sd x = false := by
  refine hasKey_eq_false fun p hmem hk => ?_
  have := mem_le_lastKeyD hs hmem
  omega

/-! ### The bisection position -/

theorem bisect_left_pos {sd : KpIndex} {x : Int}
    (hne : sd ≠ []) (h : firstKeyD sd < x) : 1 ≤ bisect_left sd x := by
  cases sd with
  | nil => exact absurd rfl hne
  | cons p ps =>
    have : p.1 < x := h
    simp [bisect_left, this]

theorem bisect_left_eq {sd : KpIndex} (hs : SortedKeys sd) {x : Int}
    {i : Nat} (hi : i < sd.length)
    (hlt : (sd.get ⟨i, hi⟩).1 < x)
    (hub : ∀ h : i + 1 < sd.length, x ≤ (sd.get ⟨i + 1, h⟩).1) :
    bisect_left sd x = i + 1 := by
  induction sd generalizing i with
  | nil => simp at hi
  | cons p ps ih =>
    rcases List.pairwise_cons.1 hs with ⟨hp, hps⟩
    cases i with
    | zero =>
      have hpx : p.1 < x := hlt
      cases ps with
      | nil => simp [bisect_left, hpx]
      | cons q qs =>
        have hq : x ≤ q.1 := hub (by simp)
        have : ¬ q.1 < x := by omega
        simp [bisect_left, hpx, this]
    | succ j =>
      have hj : j < ps.length := by simpa using hi
      have hjx : (ps.get ⟨j, hj⟩).1 < x := by simpa using hlt
      have hpx : p.1 < x := by
        have : p.1 < (ps.get ⟨j, hj⟩).1 := hp _ (ps.get_mem _ _)
        omega
      have hub' : ∀ h : j + 1 < ps.length, x ≤ (ps.get ⟨j + 1, h⟩).1 := by
        intro h
        have := hub (by simpa using Nat.succ_lt_succ h)
        simpa using this
      have := ih hps hj hjx hub'
      simp [bisect_left, hpx, this]

theorem pyIndex_coe {sd : KpIndex} {i : Nat} (hi : i < sd.length) :
    pyIndex sd (i : Int) = some (sd.get ⟨i, hi⟩) := by
  unfold pyIndex
  have h1 : ¬ (i : Int) < 0 := by omega
  have h2 : (0 : Int) ≤ (i : Int) := by omega
  simp [h1, h2, List.getElem?_eq_getElem hi]

theorem bisect_left_le_length (sd : KpIndex) (x : Int) :
    bisect_left sd x ≤ sd.length := by
  induction sd with
  | nil => simp [bisect_left]
  | cons p ps ih =>
    by_cases h : p.1 < x
    · simp only [bisect_left, if_pos h, List.length_cons]
      omega
    · simp [bisect_left, h]

theorem pyIndex_isSome {sd : KpIndex} {b : Nat} (h1 : 1 ≤ b)
    (h2 : b ≤ sd.length) :
    (pyIndex sd ((b : Int) - 1)).isSome = true := by
  have hcast : ((b : Int) - 1) = ((b - 1 : Nat) : Int) := by omega
  rw [hcast, pyIndex_coe (show b - 1 < sd.length by omega)]
  rfl

/-! ### Facts about insertion and reloading -/

theorem hasKey_sdInsert (sd : KpIndex) (k : Int) (v : Kp) (j : Int) :
    hasKey (sdInsert sd k v) j = true ↔ (k = j ∨ hasKey sd j = true) := by
  simp only [hasKey, List.any_eq_true, decide_eq_true_eq]
  induction sd with
  | nil => simp [sdInsert]
  | cons p ps ih =>
    by_cases h1 : k < p.1
    · simp only [sdInsert, if_pos h1, List.mem_cons]
      constructor
      · rintro ⟨q, hq | hq, hj⟩
        · exact Or.inl (by rw [← hj, hq])
        · exact Or.inr ⟨q, hq, hj⟩
      · rintro (h | ⟨q, hq, hj⟩)
        · exact ⟨(k, v), Or.inl rfl, h⟩
        · exact ⟨q, Or.inr hq, hj⟩
    · by_cases h2 : k = p.1
      · simp only [sdInsert, if_neg h1, if_pos h2, List.mem_cons]
        constructor
        · rintro ⟨q, hq | hq, hj⟩
          · exact Or.inl (by rw [← hj, hq])
          · exact Or.inr ⟨q, Or.inr hq, hj⟩
        · rintro (h | ⟨q, hq | hq, hj⟩)
          · exact ⟨(k, v), Or.inl rfl, h⟩
          · exact ⟨(k, v), Or.inl rfl, by rw [h2, ← hq, hj]⟩
          · exact ⟨q, Or.inr hq, hj⟩
      · simp only [sdInsert, if_neg h1, if_neg h2, List.mem_cons]
        constructor
        · rintro ⟨q, hq | hq, hj⟩
          · exact Or.inr ⟨q, Or.inl hq, hj⟩
          · rcases ih.1 ⟨q, hq, hj⟩ with h | ⟨r, hr, hrj⟩
            · exact Or.inl h
            · exact Or.inr ⟨r, Or.inr hr, hrj⟩
        · rintro (h | ⟨q, hq | hq, hj⟩)
          · obtain ⟨r, hr, hrj⟩ := ih.2 (Or.inl h)
            exact ⟨r, Or.inr hr, hrj⟩
          · exact ⟨q, Or.inl hq, hj⟩
          · obtain ⟨r, hr, hrj⟩ := ih.2 (Or.inr ⟨q, hq, hj⟩)
            exact ⟨r, Or.inr hr, hrj⟩

theorem valAt_sdInsert_ne {sd : KpIndex} {k : Int} {v : Kp} {j : Int}
    (h : k ≠ j) : valAt (sdInsert sd k v) j = valAt sd j := by
  induction sd with
  | nil => simp [sdInsert, valAt, List.find?, h]
  | cons p ps ih =>
    by_cases h1 : k < p.1
    · have hins : sdInsert (p :: ps) k v = (k, v) :: p :: ps := by
        simp [sdInsert, h1]
      rw [hins]
      simp [valAt, List.find?_cons, h]
    · by_cases h2 : k = p.1
      · have hins : sdInsert (p :: ps) k v = (k, v) :: ps := by
          simp [sdInsert, h1, h2]
        rw [hins]
        have hpj : ¬ p.1 = j := fun hpj => h (h2.trans hpj)
        simp [valAt, List.find?_cons, h, hpj]
      · have hins : sdInsert (p :: ps) k v = p :: sdInsert ps k v := by
          simp [sdInsert, h1, h2]
        rw [hins]
        by_cases h3 : p.1 = j
        · simp [valAt, List.find?_cons, h3]
        · simpa [valAt, List.find?_cons, h3] using ih

theorem hasKey_updateFromSamples (samples : List Sample) (sd : KpIndex)
    (j : Int) :
    hasKey (updateFromSamples samples sd) j = true ↔
      ((∃ s ∈ samples, s.1 = j) ∨ hasKey sd j = true) := by
  induction samples generalizing sd with
  | nil => simp [updateFromSamples]
  | cons s ss ih =>
    have hstep : updateFromSamples (s :: ss) sd
        = updateFromSamples ss (sdInsert sd s.1 s.2) := rfl
    rw [hstep, ih, hasKey_sdInsert]
    simp only [List.mem_cons]
    constructor
    · rintro (⟨q, hq, hj⟩ | h | h)
      · exact Or.inl ⟨q, Or.inr hq, hj⟩
      · exact Or.inl ⟨s, Or.inl rfl, h⟩
      · exact Or.inr h
    · rintro (⟨q, hq | hq, hj⟩ | h)
      · exact Or.inr (Or.inl (hq ▸ hj))
      · exact Or.inl ⟨q, hq, hj⟩
      · exact Or.inr (Or.inr h)

theorem valAt_updateFromSamples (samples : List Sample) (sd : KpIndex)
    {j : Int} (h : ∀ s ∈ samples, s.1 ≠ j) :
    valAt (updateFromSamples samples sd) j = valAt sd j := by
  induction samples generalizing sd with
  | nil => rfl
  | cons s ss ih =>
    have hstep : updateFromSamples (s :: ss) sd
        = updateFromSamples ss (sdInsert sd s.1 s.2) := rfl
    rw [hstep, ih _ fun q hq => h q (List.mem_cons_of_mem s hq),
      valAt_sdInsert_ne (h s (List.mem_cons_self s ss))]

/-! ### Reduction of the query through its first two steps -/

theorem query_nonempty_step {src : Source} {now : Int} {sd : KpIndex}
    {dt0 : PyDatetime} {d : Bool} (hne : sd ≠ [])
    (hmiss : hasKey sd (normalizeNaive dt0).utc = false) :
    get_kv_covering_datetime src now sd dt0 d
      = rangeAndLookup src now sd 0 (normalizeNaive dt0) d := by
  cases sd with
  | nil => exact absurd rfl hne
  | cons p ps => simp [get_kv_covering_datetime, hmiss]

theorem firstKeyD_le_lastKeyD {sd : KpIndex} (hs : SortedKeys sd)
    (hne : sd ≠ []) : firstKeyD sd ≤ lastKeyD sd := by
  rw [lastKeyD_eq_get hne]
  exact firstKeyD_le_of_mem hs (List.get_mem _ _ _)

theorem rangeAndLookup_in_range {src : Source} {now : Int} {sd : KpIndex}
    {r : Nat} {dt : PyDatetime} {disc : Bool}
    (h1 : ¬ dt.utc < firstKeyD sd) (h2 : ¬ lastKeyD sd + 180 < dt.utc) :
    rangeAndLookup src now sd r dt disc = exactThenDiscretize sd r dt disc := by
  simp [rangeAndLookup, h1, h2]

theorem normalizeNaive_idem (d : PyDatetime) :
    normalizeNaive (normalizeNaive d) = normalizeNaive d := by
  cases h : d.tz <;> simp [normalizeNaive, h]

@[simp] theorem utc_some_zero (w : Int) : PyDatetime.utc ⟨w, some 0⟩ = w := by
  simp [PyDatetime.utc]

/-! ## The claims -/

/-- C1: the claim that `refresh()` clears the index before reloading is false
on the code: `_update_sorted_dict_from_kp_table` only inserts into the
existing mapping.  Starting from an index holding key 0 and a source
supplying only key 180, a successful refresh yields an index that still has
key 0, although the source did not re-supply it. -/
theorem C1_refresh_not_clearing_counterexample :
    update_cache (Except.ok [((180 : Int), (2 : Kp))]) [((0 : Int), (1 : Kp))]
      = Except.ok [((0 : Int), (1 : Kp)), ((180 : Int), (2 : Kp))]
    ∧ hasKey [((0 : Int), (1 : Kp)), ((180 : Int), (2 : Kp))] 0 = true
    ∧ (([((180 : Int), (2 : Kp))] : List Sample).any fun s => s.1 = 0) = false :=
  ⟨rfl, rfl, rfl⟩

/-- C1 (amended): `refresh()` reloads all samples from the source into the
index by insert/overwrite, without clearing it: after a successful refresh
the key set is the union of the old key set and the source's key set, and a
key the source did not re-supply survives with its old value. -/
theorem C1_refresh_merges (sd : KpIndex) (samples : List Sample) :
    update_cache (Except.ok samples) sd
        = Except.ok (updateFromSamples samples sd)
    ∧ (∀ k, hasKey (updateFromSamples samples sd) k = true ↔
         ((∃ s ∈ samples, s.1 = k) ∨ hasKey sd k = true))
    ∧ (∀ k, (∀ s ∈ samples, s.1 ≠ k) →
         valAt (updateFromSamples samples sd) k = valAt sd k) :=
  ⟨rfl, fun k => hasKey_updateFromSamples samples sd k,
    fun _ h => valAt_updateFromSamples samples sd h⟩

theorem C1_refresh_merges_witness :
    valAt (updateFromSamples [((180 : Int), (2 : Kp))] [((0 : Int), (1 : Kp))]) 0
      = valAt [((0 : Int), (1 : Kp))] 0 :=
  (C1_refresh_merges [((0 : Int), (1 : Kp))] [((180 : Int), (2 : Kp))]).2.2 0
    (by decide)

/-- C2: for every key `k` stored in the index and either value of the
discretize flag, `query(k, discretize)` returns `(k, value(k))` via the
initial exact check, before the emptiness check, range validation, any
refresh (`refreshes = 0`, cache unchanged) or the fallback search. -/
theorem C2_exact_short_circuit (src : Source) (now : Int) (sd : KpIndex)
    (k : Int) (d : Bool) (hk : hasKey sd k = true) :
    get_kv_covering_datetime src now sd ⟨k, some 0⟩ d
      = (⟨sd, 0, false⟩, Except.ok (⟨k, some 0⟩, valAt sd k)) := by
  simp [get_kv_covering_datetime, normalizeNaive, PyDatetime.utc, hk]

theorem C2_exact_short_circuit_witness :
    get_kv_covering_datetime (Except.ok []) 0 [((0 : Int), (1 : Kp))]
        ⟨0, some 0⟩ true
      = (⟨[((0 : Int), (1 : Kp))], 0, false⟩,
          Except.ok (⟨0, some 0⟩, valAt [((0 : Int), (1 : Kp))] 0)) :=
  C2_exact_short_circuit (Except.ok []) 0 [((0 : Int), (1 : Kp))] 0 true
    (by decide)

/-- C8: construction succeeds whenever the source loads, even with zero
samples (it never inspects the result), and a query against an empty index
runs exactly one refresh and fails with `CacheEmpty` when the index is still
empty afterwards, with no further internal retries (`refreshes = 1`). -/
theorem C8_construction_and_cacheEmpty (samples : List Sample) (now : Int)
    (dt : PyDatetime) (d : Bool) :
    kpAccessorInit (Except.ok samples) = Except.ok (updateFromSamples samples [])
    ∧ get_kv_covering_datetime (Except.ok []) now [] dt d
        = (⟨[], 1, false⟩, Except.error KpError.cacheEmpty) := by
  refine ⟨rfl, ?_⟩
  simp [get_kv_covering_datetime, hasKey, update_cache, updateFromSamples]

/-- C4: for an instant strictly beyond (last key + 3h) over a non-empty
sorted index: if it is also beyond the wall clock, the query fails with
`FutureTimestamp` without refreshing; otherwise it refreshes exactly once
and, if the instant is still beyond the refreshed last key + 3h, fails with
`LaterThanLatest` with no further refresh attempts (`refreshes = 1`). -/
theorem C4_beyond_latest (samples : List Sample) (src : Source) (now : Int)
    (sd : KpIndex) (t : Int) (d : Bool)
    (hs : SortedKeys sd) (hne : sd ≠ []) (hbeyond : lastKeyD sd + 180 < t) :
    (now < t →
       get_kv_covering_datetime src now sd ⟨t, some 0⟩ d
         = (⟨sd, 0, false⟩, Except.error KpError.futureTimestamp))
    ∧ (t ≤ now → lastKeyD (updateFromSamples samples sd) + 180 < t →
       get_kv_covering_datetime (Except.ok samples) now sd ⟨t, some 0⟩ d
         = (⟨updateFromSamples samples sd, 1, false⟩,
             Except.error KpError.laterThanLatest)) := by
  have hutc : (normalizeNaive ⟨t, some 0⟩).utc = t := by
    simp [normalizeNaive, PyDatetime.utc]
  have hmiss : hasKey sd (normalizeNaive ⟨t, some 0⟩).utc = false := by
    rw [hutc]
    exact hasKey_eq_false_of_gt_last hs (by omega)
  have hfl : firstKeyD sd ≤ lastKeyD sd := firstKeyD_le_lastKeyD hs hne
  have hnotlo : ¬ (normalizeNaive ⟨t, some 0⟩).utc < firstKeyD sd := by
    rw [hutc]; omega
  have hhi : lastKeyD sd + 180 < (normalizeNaive ⟨t, some 0⟩).utc := by
    rw [hutc]; exact hbeyond
  constructor
  · intro hfut
    rw [query_nonempty_step hne hmiss]
    have hfut' : now < (normalizeNaive ⟨t, some 0⟩).utc := by rw [hutc]; exact hfut
    simp [rangeAndLookup, hnotlo, hhi, hfut']
  · intro hnow hbeyond2
    rw [query_nonempty_step hne hmiss]
    have hnotfut : ¬ now < (normalizeNaive ⟨t, some 0⟩).utc := by rw [hutc]; omega
    have hhi2 : lastKeyD (updateFromSamples samples sd) + 180
        < (normalizeNaive ⟨t, some 0⟩).utc := by rw [hutc]; exact hbeyond2
    simp [rangeAndLookup, hnotlo, hhi, hnotfut, update_cache, hhi2]

theorem C4_beyond_latest_witness :
    get_kv_covering_datetime (Except.ok [((0 : Int), (1 : Kp))]) 300
        [((0 : Int), (1 : Kp))] ⟨400, some 0⟩ true
      = (⟨[((0 : Int), (1 : Kp))], 0, false⟩,
          Except.error KpError.futureTimestamp)
    ∧ get_kv_covering_datetime (Except.ok [((0 : Int), (1 : Kp))]) 1000
        [((0 : Int), (1 : Kp))] ⟨400, some 0⟩ true
      = (⟨updateFromSamples [((0 : Int), (1 : Kp))] [((0 : Int), (1 : Kp))],
            1, false⟩,
          Except.error KpError.laterThanLatest) :=
  ⟨(C4_beyond_latest [((0 : Int), (1 : Kp))] (Except.ok [((0 : Int), (1 : Kp))])
      300 [((0 : Int), (1 : Kp))] 400 true (by decide) (by decide)
      (by decide)).1 (by decide),
   (C4_beyond_latest [((0 : Int), (1 : Kp))] (Except.ok [((0 : Int), (1 : Kp))])
      1000 [((0 : Int), (1 : Kp))] 400 true (by decide) (by decide)
      (by decide)).2 (by decide) (by decide)⟩

/-- C5: at the fallback step over a non-empty, sorted, grid-aligned index,
for a search point at or after the first key with no exact hit, the
lower-bound position is at least 1, so stepping back one position indexes a
real entry; the same holds for the grid-floored search point when it too has
no exact hit. -/
theorem C5_fallback_valid_position (sd : KpIndex) (t : Int)
    (_hs : SortedKeys sd) (hne : sd ≠ []) (hg : AlignedKeys sd)
    (hlo : firstKeyD sd ≤ t) (hmiss : hasKey sd t = false) :
    (1 ≤ bisect_left sd t
      ∧ (pyIndex sd ((bisect_left sd t : Int) - 1)).isSome = true)
    ∧ (hasKey sd (floor3h t) = false →
        1 ≤ bisect_left sd (floor3h t)
          ∧ (pyIndex sd ((bisect_left sd (floor3h t) : Int) - 1)).isSome
              = true) := by
  have hfmem : sd.get ⟨0, List.length_pos.2 hne⟩ ∈ sd := List.get_mem _ _ _
  have hfk : hasKey sd (firstKeyD sd) = true := by
    rw [firstKeyD_eq_get hne]
    exact hasKey_of_mem hfmem
  have h1 : firstKeyD sd < t := by
    rcases lt_or_eq_of_le hlo with h | h
    · exact h
    · rw [h] at hfk
      exact absurd hfk (by simp [hmiss])
  have hal : firstKeyD sd % 180 = 0 := by
    rw [firstKeyD_eq_get hne]
    exact hg _ hfmem
  constructor
  · exact ⟨bisect_left_pos hne h1,
      pyIndex_isSome (bisect_left_pos hne h1) (bisect_left_le_length sd t)⟩
  · intro hmiss'
    have h2 : firstKeyD sd ≤ floor3h t := by
      calc firstKeyD sd = floor3h (firstKeyD sd) := (floor3h_of_aligned hal).symm
        _ ≤ floor3h t := floor3h_mono hlo
    have h3 : firstKeyD sd < floor3h t := by
      rcases lt_or_eq_of_le h2 with h | h
      · exact h
      · rw [h] at hfk
        exact absurd hfk (by simp [hmiss'])
    exact ⟨bisect_left_pos hne h3,
      pyIndex_isSome (bisect_left_pos hne h3) (bisect_left_le_length sd _)⟩

theorem C5_fallback_valid_position_witness :
    ((1 ≤ bisect_left [((0 : Int), (1 : Kp)), ((360 : Int), (3 : Kp))] 270
      ∧ (pyIndex [((0 : Int), (1 : Kp)), ((360 : Int), (3 : Kp))]
          ((bisect_left [((0 : Int), (1 : Kp)), ((360 : Int), (3 : Kp))] 270 : Int)
            - 1)).isSome = true)
    ∧ (hasKey [((0 : Int), (1 : Kp)), ((360 : Int), (3 : Kp))] (floor3h 270)
          = false →
        1 ≤ bisect_left [((0 : Int), (1 : Kp)), ((360 : Int), (3 : Kp))]
            (floor3h 270)
          ∧ (pyIndex [((0 : Int), (1 : Kp)), ((360 : Int), (3 : Kp))]
              ((bisect_left [((0 : Int), (1 : Kp)), ((360 : Int), (3 : Kp))]
                  (floor3h 270) : Int) - 1)).isSome = true)) :=
  C5_fallback_valid_position [((0 : Int), (1 : Kp)), ((360 : Int), (3 : Kp))]
    270 (by decide) (by decide) (by decide) (by decide) (by decide)

/-- C6: `get_covering_instant` returns the key `query` would return when it
succeeds, converts the range-validation `ValueError`s (`BeforeEarliest`,
`FutureTimestamp`, `LaterThanLatest`) into an empty result, and lets
`CacheEmpty` and `SourceUnavailable` propagate. -/
theorem C6_downgrade_range_errors (src : Source) (now : Int) (sd0 : KpIndex)
    (dt0 : PyDatetime) :
    (∀ s k v,
        get_kv_covering_datetime src now sd0 dt0 true = (s, Except.ok (k, v)) →
        get_key_covering_date src now sd0 dt0 = (s, Except.ok (some k)))
    ∧ (∀ s e,
        get_kv_covering_datetime src now sd0 dt0 true = (s, Except.error e) →
        ((e = KpError.beforeEarliest ∨ e = KpError.futureTimestamp
            ∨ e = KpError.laterThanLatest) →
          get_key_covering_date src now sd0 dt0 = (s, Except.ok none))
        ∧ ((e = KpError.cacheEmpty ∨ e = KpError.sourceUnavailable) →
          get_key_covering_date src now sd0 dt0 = (s, Except.error e))) := by
  constructor
  · intro s k v h
    simp [get_key_covering_date, h]
  · intro s e h
    constructor
    · rintro (rfl | rfl | rfl) <;> simp [get_key_covering_date, h, isValueError]
    · rintro (rfl | rfl) <;> simp [get_key_covering_date, h, isValueError]

theorem C6_downgrade_range_errors_witness :
    get_key_covering_date (Except.ok []) 0 [((180 : Int), (2 : Kp))]
        ⟨0, some 0⟩
      = (⟨[((180 : Int), (2 : Kp))], 0, false⟩, Except.ok none) :=
  ((C6_downgrade_range_errors (Except.ok []) 0 [((180 : Int), (2 : Kp))]
      ⟨0, some 0⟩).2 ⟨[((180 : Int), (2 : Kp))], 0, false⟩
      KpError.beforeEarliest rfl).1 (Or.inl rfl)

/-- C7: the claim that step 1 converts a timezone-aware instant to UTC, so
that even the exact-match short-circuit returns the UTC-labelled instant, is
false on the code: `astimezone(timezone.utc)` is only applied inside the
discretization branch.  Querying the index `{1970-01-01T00:00Z: 1}` with
the same point in time labelled `+01:00` (wall 60, offset 60) hits the exact
check and returns the `+01:00`-labelled instant, not the UTC-labelled key,
though the two are equal as points in time. -/
theorem C7_label_counterexample :
    (get_kv_covering_datetime (Except.ok []) 0 [((0 : Int), (1 : Kp))]
        ⟨60, some 60⟩ true).2
      = Except.ok (⟨60, some 60⟩, (1 : Kp))
    ∧ (⟨60, some 60⟩ : PyDatetime) ≠ ⟨0, some 0⟩
    ∧ PyDatetime.utc ⟨60, some 60⟩ = PyDatetime.utc ⟨0, some 0⟩ :=
  ⟨rfl, by decide, rfl⟩

/-- C7 (amended): step 1 labels a naive instant as UTC without conversion
and leaves an aware instant's offset untouched; every later comparison uses
the UTC-equivalent value, so the query behaves exactly as if run on the
normalized instant, and an exact hit returns the normalized input instant
itself (with its original offset label) paired with the stored value. -/
theorem C7_naive_labelled_utc (src : Source) (now : Int) (sd : KpIndex)
    (dt0 : PyDatetime) (d : Bool) :
    get_kv_covering_datetime src now sd dt0 d
      = get_kv_covering_datetime src now sd (normalizeNaive dt0) d
    ∧ (∀ w : Int, normalizeNaive ⟨w, none⟩ = ⟨w, some 0⟩)
    ∧ (∀ w tz : Int, dt0 = ⟨w, some tz⟩ → normalizeNaive dt0 = dt0)
    ∧ (hasKey sd (normalizeNaive dt0).utc = true →
        (get_kv_covering_datetime src now sd dt0 d).2
          = Except.ok (normalizeNaive dt0, valAt sd (normalizeNaive dt0).utc)) := by
  refine ⟨?_, fun w => rfl, ?_, ?_⟩
  · unfold get_kv_covering_datetime
    rw [normalizeNaive_idem]
  · rintro w tz rfl
    simp [normalizeNaive]
  · intro hk
    simp [get_kv_covering_datetime, hk]

theorem C7_naive_labelled_utc_witness :
    (get_kv_covering_datetime (Except.ok []) 0 [((0 : Int), (1 : Kp))]
        ⟨0, none⟩ true).2
      = Except.ok (normalizeNaive ⟨0, none⟩,
          valAt [((0 : Int), (1 : Kp))] (normalizeNaive ⟨0, none⟩).utc) :=
  (C7_naive_labelled_utc (Except.ok []) 0 [((0 : Int), (1 : Kp))]
      ⟨0, none⟩ true).2.2.2 (by decide)

/-- C3: over a non-empty sorted grid-aligned index, for an instant whose
UTC-equivalent value lies strictly between two adjacent stored keys, the
query returns the left key and its value under both settings of the
discretize flag, including when the two adjacent keys are more than one
grid step apart. -/
theorem C3_between_adjacent_keys (src : Source) (now : Int) (sd : KpIndex)
    (hs : SortedKeys sd) (hg : AlignedKeys sd) (i : Nat)
    (hi : i + 1 < sd.length) (dt0 : PyDatetime) (d : Bool)
    (hl : (sd.get ⟨i, by omega⟩).1 < (normalizeNaive dt0).utc)
    (hr : (normalizeNaive dt0).utc < (sd.get ⟨i + 1, hi⟩).1) :
    (get_kv_covering_datetime src now sd dt0 d).2
      = Except.ok (⟨(sd.get ⟨i, by omega⟩).1, some 0⟩,
          valAt sd (sd.get ⟨i, by omega⟩).1) := by
  have hii : i < sd.length := by omega
  have hne : sd ≠ [] := by
    intro h
    rw [h] at hi
    simp at hi
  have hmemL : sd.get ⟨i, hii⟩ ∈ sd := List.get_mem _ _ _
  have hmemR : sd.get ⟨i + 1, hi⟩ ∈ sd := List.get_mem _ _ _
  have hmiss : hasKey sd (normalizeNaive dt0).utc = false :=
    hasKey_eq_false_of_between hs hi hl hr
  have hlow : ¬ (normalizeNaive dt0).utc < firstKeyD sd := by
    have := firstKeyD_le_of_mem hs hmemL
    omega
  have hhigh : ¬ lastKeyD sd + 180 < (normalizeNaive dt0).utc := by
    have := mem_le_lastKeyD hs hmemR
    omega
  have hvalL : valAt sd (sd.get ⟨i, hii⟩).1 = (sd.get ⟨i, hii⟩).2 :=
    valAt_of_mem hs (by rw [Prod.mk.eta]; exact hmemL)
  have hfall : ∀ (r : Nat) (w : Bool) (x : Int),
      (sd.get ⟨i, hii⟩).1 < x → x ≤ (sd.get ⟨i + 1, hi⟩).1 →
      leftNearestStep sd r w x
        = (⟨sd, r, w⟩, Except.ok (⟨(sd.get ⟨i, hii⟩).1, some 0⟩,
            valAt sd (sd.get ⟨i, hii⟩).1)) := by
    intro r w x hx1 hx2
    have hb : bisect_left sd x = i + 1 :=
      bisect_left_eq hs hii hx1 fun h => hx2
    have hcast : ((i + 1 : Nat) : Int) - 1 = (i : Int) := by omega
    unfold leftNearestStep
    rw [hb, hcast, pyIndex_coe hii, hvalL]
  rw [query_nonempty_step hne hmiss, rangeAndLookup_in_range hlow hhigh]
  unfold exactThenDiscretize
  rw [hmiss]
  cases d with
  | false =>
    rw [hfall 0 false (normalizeNaive dt0).utc hl (le_of_lt hr)]
    simp
  | true =>
    have halL : (sd.get ⟨i, hii⟩).1 % 180 = 0 := hg _ hmemL
    have h1 : (sd.get ⟨i, hii⟩).1 ≤ floor3h (normalizeNaive dt0).utc := by
      calc (sd.get ⟨i, hii⟩).1
          = floor3h (sd.get ⟨i, hii⟩).1 := (floor3h_of_aligned halL).symm
        _ ≤ floor3h (normalizeNaive dt0).utc := floor3h_mono (le_of_lt hl)
    have h2 : floor3h (normalizeNaive dt0).utc ≤ (normalizeNaive dt0).utc :=
      floor3h_le _
    rcases hf : hasKey sd (floor3h (normalizeNaive dt0).utc) with _ | _
    · have h3 : (sd.get ⟨i, hii⟩).1 < floor3h (normalizeNaive dt0).utc := by
        rcases lt_or_eq_of_le h1 with h | h
        · exact h
        · rw [← h] at hf
          rw [hasKey_of_mem hmemL] at hf
          cases hf
      simp only [if_true, utc_some_zero, hf, Bool.false_eq_true, if_false]
      rw [hfall 0 true (floor3h (normalizeNaive dt0).utc) h3 (by omega)]
    · have heq : floor3h (normalizeNaive dt0).utc = (sd.get ⟨i, hii⟩).1 := by
        rcases lt_or_eq_of_le h1 with h | h
        · have : hasKey sd (floor3h (normalizeNaive dt0).utc) = false :=
            hasKey_eq_false_of_between hs hi h (by omega)
          rw [this] at hf
          cases hf
        · exact h.symm
      simp only [if_true, utc_some_zero, hf, if_true]
      rw [heq]
      simp

theorem C3_between_adjacent_keys_witness :
    (get_kv_covering_datetime (Except.ok []) 0
        [((0 : Int), (1 : Kp)), ((540 : Int), (4 : Kp))] ⟨400, some 0⟩ true).2
      = Except.ok
          (⟨(([((0 : Int), (1 : Kp)), ((540 : Int), (4 : Kp))] : KpIndex).get
              ⟨0, by decide⟩).1, some 0⟩,
            valAt [((0 : Int), (1 : Kp)), ((540 : Int), (4 : Kp))]
              (([((0 : Int), (1 : Kp)), ((540 : Int), (4 : Kp))] : KpIndex).get
                ⟨0, by decide⟩).1) :=
  C3_between_adjacent_keys (Except.ok []) 0
    [((0 : Int), (1 : Kp)), ((540 : Int), (4 : Kp))] (by decide) (by decide)
    0 (by decide) ⟨400, some 0⟩ true (by decide) (by decide)

/-- C9: for any instant whose UTC grid-floor is a stored key of a sorted,
grid-aligned index, `get_value` returns exactly the value stored at that
grid-floor, with no error raised. -/
theorem C9_roundtrip_grid_floor (src : Source) (now : Int) (sd : KpIndex)
    (dt0 : PyDatetime) (hs : SortedKeys sd) (hg : AlignedKeys sd)
    (hk : hasKey sd (floor3h (normalizeNaive dt0).utc) = true) :
    (get_kp_from_datetime src now sd dt0).2
      = Except.ok (valAt sd (floor3h (normalizeNaive dt0).utc)) := by
  obtain ⟨v, hmemf⟩ := hasKey_iff.1 hk
  rcases h0 : hasKey sd (normalizeNaive dt0).utc with _ | _
  · have hne : sd ≠ [] := List.ne_nil_of_mem hmemf
    have hfle : floor3h (normalizeNaive dt0).utc ≤ (normalizeNaive dt0).utc :=
      floor3h_le _
    have hflt : (normalizeNaive dt0).utc
        < floor3h (normalizeNaive dt0).utc + 180 := lt_floor3h_add _
    have hlow : ¬ (normalizeNaive dt0).utc < firstKeyD sd := by
      have := firstKeyD_le_of_mem hs hmemf
      simp only at this
      omega
    have hhigh : ¬ lastKeyD sd + 180 < (normalizeNaive dt0).utc := by
      have := mem_le_lastKeyD hs hmemf
      simp only at this
      omega
    have hq : get_kv_covering_datetime src now sd dt0 true
        = (⟨sd, 0, false⟩,
            Except.ok (⟨floor3h (normalizeNaive dt0).utc, some 0⟩,
              valAt sd (floor3h (normalizeNaive dt0).utc))) := by
      rw [query_nonempty_step hne h0, rangeAndLookup_in_range hlow hhigh]
      unfold exactThenDiscretize
      rw [h0]
      simp only [if_true, utc_some_zero, hk, Bool.false_eq_true, if_false]
    simp [get_kp_from_datetime, hq]
  · have halt : (normalizeNaive dt0).utc % 180 = 0 := by
      obtain ⟨w, hmem⟩ := hasKey_iff.1 h0
      exact hg _ hmem
    have hq : get_kv_covering_datetime src now sd dt0 true
        = (⟨sd, 0, false⟩,
            Except.ok (normalizeNaive dt0,
              valAt sd (normalizeNaive dt0).utc)) := by
      simp [get_kv_covering_datetime, h0]
    simp [get_kp_from_datetime, hq, floor3h_of_aligned halt]

theorem C9_roundtrip_grid_floor_witness :
    (get_kp_from_datetime (Except.ok []) 0 [((0 : Int), (1 : Kp))]
        ⟨90, some 0⟩).2
      = Except.ok
          (valAt [((0 : Int), (1 : Kp))]
            (floor3h (normalizeNaive ⟨90, some 0⟩).utc)) :=
  C9_roundtrip_grid_floor (Except.ok []) 0 [((0 : Int), (1 : Kp))]
    ⟨90, some 0⟩ (by decide) (by decide) (by decide)

/-- C10: over a non-empty sorted grid-aligned index, a query at exactly
(last key + 3h) passes range validation (the beyond-range check is strict)
with no refresh, and with discretize=true returns the last key and its
value (after the non-fatal discretization-miss warning). -/
theorem C10_at_last_plus_grid (src : Source) (now : Int) (sd : KpIndex)
    (hs : SortedKeys sd) (hg : AlignedKeys sd) (hne : sd ≠ []) :
    get_kv_covering_datetime src now sd ⟨lastKeyD sd + 180, some 0⟩ true
      = (⟨sd, 0, true⟩,
          Except.ok (⟨lastKeyD sd, some 0⟩, valAt sd (lastKeyD sd))) := by
  have hlen : 0 < sd.length := List.length_pos.2 hne
  have hlast : lastKeyD sd = (sd.get ⟨sd.length - 1, by omega⟩).1 :=
    lastKeyD_eq_get hne
  have hmemN : sd.get ⟨sd.length - 1, by omega⟩ ∈ sd := List.get_mem _ _ _
  have hutc : (normalizeNaive ⟨lastKeyD sd + 180, some 0⟩).utc
      = lastKeyD sd + 180 := by
    simp [normalizeNaive, PyDatetime.utc]
  have hmiss : hasKey sd (normalizeNaive ⟨lastKeyD sd + 180, some 0⟩).utc
      = false := by
    rw [hutc]
    exact hasKey_eq_false_of_gt_last hs (by omega)
  have hfl : firstKeyD sd ≤ lastKeyD sd := firstKeyD_le_lastKeyD hs hne
  have hlow : ¬ (normalizeNaive ⟨lastKeyD sd + 180, some 0⟩).utc
      < firstKeyD sd := by
    rw [hutc]; omega
  have hhigh : ¬ lastKeyD sd + 180
      < (normalizeNaive ⟨lastKeyD sd + 180, some 0⟩).utc := by
    rw [hutc]; omega
  have halN : lastKeyD sd % 180 = 0 := by
    rw [hlast]
    exact hg _ hmemN
  have hfloor : floor3h (lastKeyD sd + 180) = lastKeyD sd + 180 :=
    floor3h_of_aligned (by omega)
  have hb : bisect_left sd (lastKeyD sd + 180) = (sd.length - 1) + 1 := by
    refine bisect_left_eq hs (x := lastKeyD sd + 180) (i := sd.length - 1)
      (by omega) (by rw [← hlast]; omega) ?_
    intro h
    omega
  have hcast : (((sd.length - 1 : Nat) + 1 : Nat) : Int) - 1
      = ((sd.length - 1 : Nat) : Int) := by omega
  have hvalN : valAt sd (sd.get ⟨sd.length - 1, by omega⟩).1
      = (sd.get ⟨sd.length - 1, by omega⟩).2 :=
    valAt_of_mem hs (by rw [Prod.mk.eta]; exact hmemN)
  have hmiss' : hasKey sd (lastKeyD sd + 180) = false := by
    rw [hutc] at hmiss
    exact hmiss
  have hstep : exactThenDiscretize sd 0
      (normalizeNaive ⟨lastKeyD sd + 180, some 0⟩) true
      = leftNearestStep sd 0 true (lastKeyD sd + 180) := by
    simp only [exactThenDiscretize, hutc, utc_some_zero, hfloor, hmiss',
      Bool.false_eq_true, if_false, if_true]
  rw [query_nonempty_step hne hmiss, rangeAndLookup_in_range hlow hhigh,
    hstep]
  unfold leftNearestStep
  rw [hb, hcast, pyIndex_coe (show sd.length - 1 < sd.length by omega)]
  simp only []
  rw [hlast, hvalN]

theorem C10_at_last_plus_grid_witness :
    get_kv_covering_datetime (Except.ok []) 0 [((0 : Int), (1 : Kp))]
        ⟨lastKeyD [((0 : Int), (1 : Kp))] + 180, some 0⟩ true
      = (⟨[((0 : Int), (1 : Kp))], 0, true⟩,
          Except.ok (⟨lastKeyD [((0 : Int), (1 : Kp))], some 0⟩,
            valAt [((0 : Int), (1 : Kp))] (lastKeyD [((0 : Int), (1 : Kp))]))) :=
  C10_at_last_plus_grid (Except.ok []) 0 [((0 : Int), (1 : Kp))]
    (by decide) (by decide) (by decide)

end KpModel
